import Mathlib

/-!
Shallow embedding of the flowfairy-api FCS decoder (src/lib.rs) and proofs
about it.  The Rust byte source (a `BufReader<File>`) is modelled as a
`List Nat` of byte values together with an explicit stream position; every
fallible Rust operation returns `Except RsError`, where `RsError.panic`
marks the places where the Rust code aborts the process (the `panic!`,
`expect`, `unwrap` and out-of-bounds paths) and `RsError.ioError` marks
`io::Error` values that are returned to the caller.
-/

namespace FlowFairy

abbrev Byte := Nat

/-- The two ways a fallible operation in lib.rs can go wrong: a returned
`io::Error`, or a process abort (`panic!` / `expect` / `unwrap` /
out-of-bounds indexing).  The string carries the message. -/
inductive RsError where
  | ioError : String → RsError
  | panic : String → RsError
deriving DecidableEq, Repr

deriving instance DecidableEq for Except

/-- Bytes of an ASCII string, used to build concrete byte sources. -/
def asciiB (s : String) : List Byte := s.data.map Char.toNat

/-- A UTF-8 continuation byte (0x80..0xBF). -/
def utf8Cont (b : Byte) : Bool := 0x80 ≤ b && b ≤ 0xBF

/-- `str::from_utf8`: decode a byte list as UTF-8, `none` on invalid input.
Overlong encodings, surrogates and out-of-range sequences are rejected,
matching Rust.  Scalar values are rebuilt exactly. -/
def utf8Decode : List Byte → Option (List Char)
  | [] => some []
  | b :: rest =>
    if b ≤ 0x7F then
      (utf8Decode rest).map (fun cs => Char.ofNat b :: cs)
    else if b ≤ 0xC1 then none
    else if b ≤ 0xDF then
      match rest with
      | b2 :: r =>
        if utf8Cont b2 then
          (utf8Decode r).map (fun cs => Char.ofNat ((b - 0xC0) * 0x40 + (b2 - 0x80)) :: cs)
        else none
      | [] => none
    else if b ≤ 0xEF then
      match rest with
      | b2 :: b3 :: r =>
        if (if b = 0xE0 then 0xA0 ≤ b2 && b2 ≤ 0xBF
            else if b = 0xED then 0x80 ≤ b2 && b2 ≤ 0x9F
            else utf8Cont b2) && utf8Cont b3 then
          (utf8Decode r).map (fun cs =>
            Char.ofNat ((b - 0xE0) * 0x1000 + (b2 - 0x80) * 0x40 + (b3 - 0x80)) :: cs)
        else none
      | _ => none
    else if b ≤ 0xF4 then
      match rest with
      | b2 :: b3 :: b4 :: r =>
        if (if b = 0xF0 then 0x90 ≤ b2 && b2 ≤ 0xBF
            else if b = 0xF4 then 0x80 ≤ b2 && b2 ≤ 0x8F
            else utf8Cont b2) && utf8Cont b3 && utf8Cont b4 then
          (utf8Decode r).map (fun cs =>
            Char.ofNat ((b - 0xF0) * 0x40000 + (b2 - 0x80) * 0x1000 +
              (b3 - 0x80) * 0x40 + (b4 - 0x80)) :: cs)
        else none
      | _ => none
    else none

/-- Drop elements satisfying `p` from both ends of a list. -/
def trimList {α : Type} (p : α → Bool) (l : List α) : List α :=
  ((l.dropWhile p).reverse.dropWhile p).reverse

/-- `u8::is_ascii_whitespace` (space, tab, line feed, form feed, carriage
return), the predicate behind `[u8]::trim_ascii`. -/
def isAsciiWsByte (b : Byte) : Bool :=
  b = 0x20 || b = 0x9 || b = 0xA || b = 0xC || b = 0xD

/-- `[u8]::trim_ascii` as used on the header offset fields. -/
def trimAsciiBytes (l : List Byte) : List Byte := trimList isAsciiWsByte l

/-- `char::is_whitespace` (the Unicode White_Space property), the
predicate behind `str::trim` in clean_kv. -/
def isRustWsChar (c : Char) : Bool :=
  c.toNat ∈ [0x9, 0xA, 0xB, 0xC, 0xD, 0x20, 0x85, 0xA0, 0x1680,
    0x2000, 0x2001, 0x2002, 0x2003, 0x2004, 0x2005, 0x2006, 0x2007,
    0x2008, 0x2009, 0x200A, 0x2028, 0x2029, 0x202F, 0x205F, 0x3000]

/-- `str::trim`. -/
def strTrim (s : String) : String := String.mk (trimList isRustWsChar s.data)

/-- Digit-string value. -/
def digitsVal (cs : List Char) : Nat :=
  cs.foldl (fun acc c => acc * 10 + (c.toNat - 0x30)) 0

/-- `str::parse::<u64>()` (also usize on a 64-bit target): an optional
leading plus sign, then one or more ASCII digits, value below 2^64. -/
def parseU64 (s : String) : Option Nat :=
  let cs := match s.data with
    | '+' :: rest => rest
    | l => l
  if cs ≠ [] ∧ cs.all Char.isDigit then
    let n := digitsVal cs
    if n < 2 ^ 64 then some n else none
  else none

/-! ## Data model (lib.rs lines 59-90) -/

/-- Assemble a machine word from bytes, least significant byte first
(what `byteorder::LittleEndian` does). -/
def leBits (bs : List Byte) : Nat := bs.foldr (fun b acc => b + 0x100 * acc) 0

/-- Assemble a machine word from bytes, most significant byte first
(what `byteorder::BigEndian` does). -/
def beBits (bs : List Byte) : Nat := bs.foldl (fun acc b => 0x100 * acc + b) 0

/-- `read_i32::<LittleEndian>`: two's-complement value of the 32-bit
word assembled from four little-endian bytes. -/
def i32FromLeBytes (bs : List Byte) : Int :=
  let u := leBits bs
  if u < 2 ^ 31 then (u : Int) else (u : Int) - 2 ^ 32

/-- One element of the flat `Vec<f64>` built by read_data.  The numeric
IEEE-754 interpretation of float values is outside the shallow embedding;
a decoded value is represented by its exact bit pattern (for floats) or
integer value (for the `I` branch, where the i32 is widened to f64
losslessly).  The claims about read_data concern only the count, order
and slicing of these values, which this representation preserves. -/
inductive DecodedValue where
  | i32val : Int → DecodedValue
  | f32val : Nat → DecodedValue
  | f64val : Nat → DecodedValue
deriving DecidableEq, Repr

/-- lib.rs `Metadata`: version, TEXT-segment delimiter byte, ordered
keyword list, and the keyword-to-value map.  The Rust `HashMap` is
modelled as an association list consulted through `hmGet`; `hmInsert`
prepends, so a lookup sees the most recently inserted binding, which is
exactly `HashMap::insert` overwrite semantics. -/
structure Metadata where
  version : String
  delimitter : Byte
  keywords : List String
  values : List (String × String)
deriving DecidableEq, Repr

/-- lib.rs `Parameter`: parameter id (name) and its event data. -/
structure Parameter where
  id : String
  events : List DecodedValue
deriving DecidableEq, Repr

/-- lib.rs `Header`: FCS version and byte offsets of the segments. -/
structure Header where
  version : String
  txt_start : Nat
  txt_end : Nat
  data_start : Nat
  data_end : Nat
  analysis_start : Nat
  analysis_end : Nat
deriving DecidableEq, Repr

/-- lib.rs `FlowData`: the decoded result. -/
structure FlowData where
  metadata : Metadata
  data : List Parameter
deriving DecidableEq, Repr

/-- `HashMap::get` on the association-list model. -/
def hmGet (m : List (String × String)) (k : String) : Option String :=
  match m with
  | [] => none
  | p :: rest => if p.1 = k then some p.2 else hmGet rest k

/-- `HashMap::insert` on the association-list model: the new binding
shadows any earlier one, so duplicate keys keep the last value. -/
def hmInsert (m : List (String × String)) (k v : String) : List (String × String) :=
  (k, v) :: m

/-! ## Reader primitives

The `BufReader<File>` is a byte list plus a stream position.  `seek`
just changes the position (seeking past end-of-file succeeds, as for a
Rust `File`), `stream_position` reads it. -/

/-- `Read::read_exact`: `n` bytes from position `pos`, or the
`UnexpectedEof` io::Error that `?` propagates to the caller. -/
def readExact (bytes : List Byte) (pos n : Nat) : Except RsError (List Byte) :=
  if pos + n ≤ bytes.length then .ok ((bytes.drop pos).take n)
  else .error (.ioError "failed to fill whole buffer")

/-- `BufRead::read_until` on the suffix starting at the current
position: consume bytes up to and including the first delimiter, or to
end of input; at end of input it reads nothing (Ok(0)), not an error. -/
def readUntilList (delim : Byte) : List Byte → List Byte
  | [] => []
  | b :: rest => if b = delim then [b] else b :: readUntilList delim rest

/-- `read_until` with explicit position bookkeeping: the chunk read and
the new stream position. -/
def readUntil (delim : Byte) (bytes : List Byte) (pos : Nat) : List Byte × Nat :=
  (readUntilList delim (bytes.drop pos),
   pos + (readUntilList delim (bytes.drop pos)).length)

/-! ## Header (lib.rs lines 110-166) -/

/-- lib.rs validate_fcs_version (lines 144-154): UTF-8 decode the 6
version bytes (`expect` aborts on invalid input) and require one of the
two supported tags, aborting otherwise. -/
def validate_fcs_version (bs : List Byte) : Except RsError String :=
  match utf8Decode bs with
  | none => .error (.panic "Could not convert bytes to string")
  | some cs =>
    let v := String.mk cs
    if v = "FCS3.0" ∨ v = "FCS3.1" then .ok v
    else .error (.panic ("Warning, FCS version " ++ v ++ " not supported"))

/-- lib.rs validate_spaces (lines 157-166): the 4 bytes after the
version must be exactly four spaces, else the process aborts. -/
def validate_spaces (bs : List Byte) : Except RsError String :=
  match utf8Decode bs with
  | none => .error (.panic "Could not convert bytes to string")
  | some cs =>
    let v := String.mk cs
    if v = "    " then .ok v
    else .error (.panic "Invalid number of spaces")

/-- One 8-byte offset field (lib.rs lines 122-127): `trim_ascii` the
bytes, UTF-8 decode (`expect` aborts on invalid), parse as u64
(`expect` aborts on failure). -/
def headerFieldNat (bs : List Byte) : Except RsError Nat :=
  match utf8Decode (trimAsciiBytes bs) with
  | none => .error (.panic "Unablel to convert byte array to str")
  | some cs =>
    match parseU64 (String.mk cs) with
    | none => .error (.panic "Unable to convert str to u64")
    | some n => .ok n

/-- One iteration of the offset loop: read 8 bytes and parse them. -/
def readOffsetField (bytes : List Byte) (pos : Nat) : Except RsError Nat :=
  match readExact bytes pos 8 with
  | .error e => .error e
  | .ok fb => headerFieldNat fb

/-- lib.rs read_header (lines 111-141): version tag, four spaces, then
six 8-byte decimal offset fields assigned positionally. -/
def read_header (bytes : List Byte) : Except RsError Header :=
  match readExact bytes 0 6 with
  | .error e => .error e
  | .ok vb =>
    match validate_fcs_version vb with
    | .error e => .error e
    | .ok version =>
      match readExact bytes 6 4 with
      | .error e => .error e
      | .ok sb =>
        match validate_spaces sb with
        | .error e => .error e
        | .ok _ =>
          match readOffsetField bytes 10 with
          | .error e => .error e
          | .ok n0 =>
            match readOffsetField bytes 18 with
            | .error e => .error e
            | .ok n1 =>
              match readOffsetField bytes 26 with
              | .error e => .error e
              | .ok n2 =>
                match readOffsetField bytes 34 with
                | .error e => .error e
                | .ok n3 =>
                  match readOffsetField bytes 42 with
                  | .error e => .error e
                  | .ok n4 =>
                    match readOffsetField bytes 50 with
                    | .error e => .error e
                    | .ok n5 =>
                      .ok ⟨version, n0, n1, n2, n3, n4, n5⟩

/-! ## TEXT segment (lib.rs lines 168-212) -/

/-- lib.rs clean_kv (lines 198-212): slice off the trailing delimiter
byte of each chunk (on an empty chunk the length-minus-one subtraction
underflows and the process aborts), UTF-8 decode treating invalid bytes
as the empty string, and trim whitespace. -/
def cleanKv (keyword value : List Byte) : Except RsError (String × String) :=
  match keyword with
  | [] => .error (.panic "attempt to subtract with overflow")
  | _ =>
    match value with
    | [] => .error (.panic "attempt to subtract with overflow")
    | _ =>
      let k := match utf8Decode (keyword.take (keyword.length - 1)) with
        | some cs => strTrim (String.mk cs)
        | none => ""
      let v := match utf8Decode (value.take (value.length - 1)) with
        | some cs => strTrim (String.mk cs)
        | none => ""
      .ok (k, v)

/-- The keyword/value loop of lib.rs read_metadata (lines 180-192),
producing the cleaned pairs in file order.  The loop runs while the
stream position is below `txt_end`; each iteration reads a
delimiter-terminated keyword chunk and value chunk and cleans them.
Structural recursion is on an explicit fuel: a continuing iteration
advances the position by at least two (an iteration that reads an empty
chunk aborts inside clean_kv), so the wrapper fuel `txt_end + 1 - pos`
can never run out — the exhaustion branch is unreachable
(`readPairsFuel_fuel_irrelevant`). -/
def readPairsFuel (delim : Byte) (bytes : List Byte) (txtEnd : Nat) :
    Nat → Nat → Except RsError (List (String × String))
  | 0, _ => .error (.panic "loop fuel exhausted")
  | fuel + 1, pos =>
    if pos < txtEnd then
      let kw := readUntil delim bytes pos
      let vl := readUntil delim bytes kw.2
      match cleanKv kw.1 vl.1 with
      | .error e => .error e
      | .ok pr =>
        match readPairsFuel delim bytes txtEnd fuel vl.2 with
        | .error e => .error e
        | .ok rest => .ok (pr :: rest)
    else .ok []

/-- The keyword/value loop, from stream position `pos`. -/
def readPairs (delim : Byte) (bytes : List Byte) (txtEnd pos : Nat) :
    Except RsError (List (String × String)) :=
  readPairsFuel delim bytes txtEnd (txtEnd + 1 - pos) pos

/-- The same loop, instrumented to record the raw (keyword chunk, value
chunk) pairs that are handed to clean_kv, including a final pair with an
empty chunk on which clean_kv aborts. -/
def metadataChunksFuel (delim : Byte) (bytes : List Byte) (txtEnd : Nat) :
    Nat → Nat → List (List Byte × List Byte)
  | 0, _ => []
  | fuel + 1, pos =>
    if pos < txtEnd then
      let kw := readUntil delim bytes pos
      let vl := readUntil delim bytes kw.2
      if kw.1.isEmpty || vl.1.isEmpty then [(kw.1, vl.1)]
      else (kw.1, vl.1) :: metadataChunksFuel delim bytes txtEnd fuel vl.2
    else []

/-- Raw chunk pairs handed to clean_kv, from stream position `pos`. -/
def metadataChunks (delim : Byte) (bytes : List Byte) (txtEnd pos : Nat) :
    List (List Byte × List Byte) :=
  metadataChunksFuel delim bytes txtEnd (txtEnd + 1 - pos) pos

/-- The record/insert step of the loop (lib.rs lines 188-191): an empty
cleaned keyword is discarded, any other pair is appended to the ordered
keyword list and inserted into the value map. -/
def buildMetaLoop : Metadata → List (String × String) → Metadata
  | m, [] => m
  | m, (k, v) :: rest =>
    if k ≠ "" then
      buildMetaLoop
        { m with keywords := m.keywords ++ [k], values := hmInsert m.values k v } rest
    else buildMetaLoop m rest

/-- Metadata assembled from the version, delimiter and cleaned pairs. -/
def buildMeta (version : String) (delim : Byte) (pairs : List (String × String)) :
    Metadata :=
  buildMetaLoop ⟨version, delim, [], []⟩ pairs

/-! ## Keyword validation (lib.rs lines 10-57 and 214-236) -/

/-- lib.rs REQUIRED_KEYWORDS. -/
def REQUIRED_KEYWORDS : List String :=
  ["$BEGINANALYSIS", "$BEGINDATA", "$BEGINSTEXT", "$BYTEORD", "$DATATYPE",
   "$ENDANALYSIS", "$ENDDATA", "$ENDSTEXT", "$MODE", "$NEXTDATA", "$PAR", "$TOT"]

/-- lib.rs OPTIONAL_KEYWORDS. -/
def OPTIONAL_KEYWORDS : List String :=
  ["$ABRT", "$BTIM", "$CELLS", "$COM", "$CSMODE", "$CSVBITS", "$CYT",
   "$CYTSN", "$DATE", "$ETIM", "$EXP", "$FIL", "$GATE", "$GATING", "$INST",
   "$LAST_MODIFIED", "$LAST_MODIFIER", "$LOST", "$OP", "$ORIGINALITY",
   "$PLATEID", "$PLATENAME", "$PROJ", "$SMNO", "$SPILLOVER", "$SRC", "$SYS",
   "$TIMESTEP", "$TR", "$VOL", "$WELLID"]

/-- The suffix character class of the parameter-keyword regex, in source
order. -/
def isSuffixLetter (c : Char) : Bool :=
  c ∈ ['B', 'E', 'N', 'R', 'D', 'F', 'G', 'L', 'O', 'P', 'S', 'T', 'V', 'I', 'W']

/-- Continuation of a regex match after the P/R head: between one and
`d` digit characters followed by a suffix-class character.  The digit
class of the regex crate is Unicode; every keyword of the format is
ASCII, so it is modelled by the ASCII digit class. -/
def digitsThenSuffix : Nat → List Char → Bool
  | 0, _ => false
  | _ + 1, [] => false
  | d + 1, c :: cs =>
    c.isDigit &&
      (match cs with
       | [] => false
       | c2 :: _ => isSuffixLetter c2 || digitsThenSuffix d cs)

/-- A regex match starting exactly at the head of `cs`. -/
def matchAt (d : Nat) : List Char → Bool
  | [] => false
  | c :: cs => (c = 'P' || c = 'R') && digitsThenSuffix d cs

/-- `RegexSet::is_match` for the pattern built at lib.rs line 227: an
unanchored search, so the pattern may match any substring of the
keyword. -/
def paramMatch (d : Nat) : List Char → Bool
  | [] => false
  | c :: cs => matchAt d (c :: cs) || paramMatch d cs

/-- The keyword test of lib.rs line 232: required, or optional, or the
regex matches somewhere in the keyword. -/
def validKeyword (d : Nat) (k : String) : Bool :=
  REQUIRED_KEYWORDS.contains k || OPTIONAL_KEYWORDS.contains k || paramMatch d k.data

/-- The required-keyword loop (lib.rs lines 218-223): abort on the
first required keyword missing from the ordered keyword list. -/
def checkRequired (req : List String) (kws : List String) : Except RsError Unit :=
  match req with
  | [] => .ok ()
  | r :: rest =>
    if kws.contains r then checkRequired rest kws
    else .error (.panic ("Required keyword " ++ r ++ " is missing"))

/-- The keyword-validity loop (lib.rs lines 231-235): abort on the
first keyword that is neither required nor optional nor matched by the
parameter regex. -/
def checkKeywords (d : Nat) : List String → Except RsError Unit
  | [] => .ok ()
  | k :: rest =>
    if validKeyword d k then checkKeywords d rest
    else .error (.panic ("Keyword " ++ k ++ " is not a valid keyword"))

/-- lib.rs validate_metadata (lines 215-236): all required keywords
present, then every keyword valid against the regex whose digit bound is
the character count of the $PAR value.  The `unwrap` on the $PAR lookup
and the `unwrap` on `RegexSet::new` (which fails when the digit bound is
zero, making the repetition range empty) abort the process. -/
def validate_metadata (m : Metadata) : Except RsError Unit :=
  match checkRequired REQUIRED_KEYWORDS m.keywords with
  | .error e => .error e
  | .ok _ =>
    match hmGet m.values "$PAR" with
    | none => .error (.panic "called Option unwrap on a None value")
    | some totalParams =>
      if totalParams.length = 0 then
        .error (.panic "invalid repetition count range")
      else checkKeywords totalParams.length m.keywords

/-- lib.rs read_metadata (lines 170-195): parse the header, seek to
`txt_start`, read the delimiter byte, run the keyword/value loop while
the position is below `txt_end`, record the cleaned pairs, and validate
the result. -/
def read_metadata (bytes : List Byte) : Except RsError Metadata :=
  match read_header bytes with
  | .error e => .error e
  | .ok header =>
    match readExact bytes header.txt_start 1 with
    | .error e => .error e
    | .ok db =>
      let delim := db.headI
      match readPairs delim bytes header.txt_end (header.txt_start + 1) with
      | .error e => .error e
      | .ok pairs =>
        let m := buildMeta header.version delim pairs
        match validate_metadata m with
        | .error e => .error e
        | .ok _ => .ok m

/-! ## DATA segment (lib.rs lines 238-315) -/

/-- Read one fixed-size value chunk from the front of the remaining
DATA bytes (`byteorder` read calls propagate `UnexpectedEof`). -/
def readValueChunk (n : Nat) (s : List Byte) : Except RsError (List Byte × List Byte) :=
  if n ≤ s.length then .ok (s.take n, s.drop n)
  else .error (.ioError "failed to fill whole buffer")

/-- The `"I"` branch (lib.rs lines 262-268): `capacity` i32 values,
always little-endian, widened to f64. -/
def decodeI : Nat → List Byte → Except RsError (List DecodedValue × List Byte)
  | 0, s => .ok ([], s)
  | c + 1, s =>
    match readValueChunk 4 s with
    | .error e => .error e
    | .ok (chunk, rest) =>
      match decodeI c rest with
      | .error e => .error e
      | .ok (vs, fin) => .ok (.i32val (i32FromLeBytes chunk) :: vs, fin)

/-- The `"F"` branch (lib.rs lines 269-278): `capacity` loop iterations;
each reads one f32 little-endian for byte order "1,2,3,4", big-endian
for "4,3,2,1", and otherwise reads nothing and pushes nothing — the
iteration is a silent no-op. -/
def decodeF (bo : String) : Nat → List Byte → Except RsError (List DecodedValue × List Byte)
  | 0, s => .ok ([], s)
  | c + 1, s =>
    if bo = "1,2,3,4" then
      match readValueChunk 4 s with
      | .error e => .error e
      | .ok (chunk, rest) =>
        match decodeF bo c rest with
        | .error e => .error e
        | .ok (vs, fin) => .ok (.f32val (leBits chunk) :: vs, fin)
    else if bo = "4,3,2,1" then
      match readValueChunk 4 s with
      | .error e => .error e
      | .ok (chunk, rest) =>
        match decodeF bo c rest with
        | .error e => .error e
        | .ok (vs, fin) => .ok (.f32val (beBits chunk) :: vs, fin)
    else decodeF bo c s

/-- The `"D"` branch (lib.rs lines 280-290): as for `"F"` with 8-byte
values and the 8-byte byte-order tokens. -/
def decodeD (bo : String) : Nat → List Byte → Except RsError (List DecodedValue × List Byte)
  | 0, s => .ok ([], s)
  | c + 1, s =>
    if bo = "1,2,3,4,5,6,7,8" then
      match readValueChunk 8 s with
      | .error e => .error e
      | .ok (chunk, rest) =>
        match decodeD bo c rest with
        | .error e => .error e
        | .ok (vs, fin) => .ok (.f64val (leBits chunk) :: vs, fin)
    else if bo = "8,7,6,5,4,3,2,1" then
      match readValueChunk 8 s with
      | .error e => .error e
      | .ok (chunk, rest) =>
        match decodeD bo c rest with
        | .error e => .error e
        | .ok (vs, fin) => .ok (.f64val (beBits chunk) :: vs, fin)
    else decodeD bo c s

/-- The inner event loop of the assembly stage (lib.rs lines 302-305):
`count` flat-array elements starting at index `idx`; indexing past the
end of the `Vec` aborts the process. -/
def sliceEvents (data : List DecodedValue) : Nat → Nat → Except RsError (List DecodedValue)
  | _, 0 => .ok []
  | idx, c + 1 =>
    match data[idx]? with
    | none => .error (.panic "index out of bounds")
    | some v =>
      match sliceEvents data (idx + 1) c with
      | .error e => .error e
      | .ok vs => .ok (v :: vs)

/-- The parameter-assembly loop (lib.rs lines 296-312): for each
parameter index `i` (0-based, `r` of them left), look up the name under
the $PnN keyword (`unwrap` aborts when missing) and take the events at
flat indices `i * totalEvents + j`. -/
def assembleFrom (values : List (String × String)) (data : List DecodedValue)
    (totalEvents : Nat) : Nat → Nat → Except RsError (List Parameter)
  | _, 0 => .ok []
  | i, r + 1 =>
    match hmGet values ("$P" ++ toString (i + 1) ++ "N") with
    | none => .error (.panic "called Option unwrap on a None value")
    | some id =>
      match sliceEvents data (i * totalEvents) totalEvents with
      | .error e => .error e
      | .ok events =>
        match assembleFrom values data totalEvents (i + 1) r with
        | .error e => .error e
        | .ok rest => .ok (⟨id, events⟩ :: rest)

/-- lib.rs read_data (lines 239-315): check $MODE is list mode, read
$DATATYPE, $PAR, $TOT, $BEGINDATA and $BYTEORD from the value map (every
`unwrap` aborts on failure), require a nonzero capacity, seek to the
$BEGINDATA offset, decode the flat value array by datatype and byte
order, and slice it into one parameter per declared index. -/
def read_data (bytes : List Byte) (metadata : Metadata) : Except RsError (List Parameter) :=
  match hmGet metadata.values "$MODE" with
  | none => .error (.panic "called Option unwrap on a None value")
  | some data_mode =>
    if data_mode ≠ "L" then
      .error (.panic ("Data mode " ++ data_mode ++ " not supported"))
    else
      match hmGet metadata.values "$DATATYPE" with
      | none => .error (.panic "called Option unwrap on a None value")
      | some data_type =>
        match hmGet metadata.values "$PAR" with
        | none => .error (.panic "called Option unwrap on a None value")
        | some parStr =>
          match parseU64 parStr with
          | none => .error (.panic "called Result unwrap on an Err value")
          | some total_params =>
            match hmGet metadata.values "$TOT" with
            | none => .error (.panic "called Option unwrap on a None value")
            | some totStr =>
              match parseU64 totStr with
              | none => .error (.panic "called Result unwrap on an Err value")
              | some total_events =>
                match hmGet metadata.values "$BEGINDATA" with
                | none => .error (.panic "called Option unwrap on a None value")
                | some beginStr =>
                  match parseU64 beginStr with
                  | none => .error (.panic "called Result unwrap on an Err value")
                  | some start_offset =>
                    match hmGet metadata.values "$BYTEORD" with
                    | none => .error (.panic "called Option unwrap on a None value")
                    | some byte_order =>
                      let capacity := total_params * total_events
                      if capacity = 0 then .error (.panic "No data in file")
                      else
                        let suffix := bytes.drop start_offset
                        let decoded :=
                          if data_type = "I" then decodeI capacity suffix
                          else if data_type = "F" then decodeF byte_order capacity suffix
                          else if data_type = "D" then decodeD byte_order capacity suffix
                          else .error (.panic "Invalid data type")
                        match decoded with
                        | .error e => .error e
                        | .ok (data, _) =>
                          assembleFrom metadata.values data total_events 0 total_params

/-- lib.rs read_fcs (lines 96-108): metadata then data, assembled into
a FlowData only when both stages succeed.  `File::open` and the
filename are outside the model; the byte source stands for the opened
file. -/
def read_fcs (bytes : List Byte) : Except RsError FlowData :=
  match read_metadata bytes with
  | .error e => .error e
  | .ok metadata =>
    match read_data bytes metadata with
    | .error e => .error e
    | .ok data => .ok ⟨metadata, data⟩

/-! ## Spec-side comparison definition -/

/-- Helper for `paramPatternWhole`: between one and `d` digits followed
by exactly one suffix letter, consuming the whole list. -/
def digitsSuffixWhole : Nat → List Char → Bool
  | 0, _ => false
  | _ + 1, [] => false
  | d + 1, c :: cs =>
    c.isDigit &&
      (match cs with
       | [s] => isSuffixLetter s
       | _ => digitsSuffixWhole d cs)

/-- Written from the spec wording, for comparison with the code's
substring search `paramMatch`: the whole keyword is of the
parameter-attribute shape — one prefix letter P or R, then a decimal
index of at most `d` digits, then one attribute-suffix letter, and
nothing else. -/
def paramPatternWhole (d : Nat) (cs : List Char) : Bool :=
  match cs with
  | [] => false
  | c :: rest => (c = 'P' || c = 'R') && digitsSuffixWhole d rest

/-! ## Observation helpers for the parsing loop -/

/-- The keywords the record/insert step keeps, in file order: one entry
per cleaned pair with a non-empty keyword. -/
def recordedKeywords : List (String × String) → List String
  | [] => []
  | (k, _) :: rest =>
    if k ≠ "" then k :: recordedKeywords rest else recordedKeywords rest

/-- The value of the last pair in the list whose keyword is `k`. -/
def lastValueFor (k : String) : List (String × String) → Option String
  | [] => none
  | (k1, v1) :: rest =>
    match lastValueFor k rest with
    | some v => some v
    | none => if k1 = k then some v1 else none

/-! ## Concrete byte sources and metadata used by witnesses and
counterexamples -/

/-- The 58-byte header of the FCS3.1 fixture of spec section 8 and
tests/fcs.rs: version FCS3.1, four spaces, offsets 64, 8255, 8256,
445255, 0, 0. -/
def fcs31FixtureHeader : List Byte :=
  asciiB ("FCS3.1" ++ "    " ++ "      64" ++ "    8255" ++ "    8256" ++
    "  445255" ++ "       0" ++ "       0")

/-- TEXT segment of a minimal well-formed FCS byte source: delimiter /,
the twelve required keywords, one parameter name, $PAR = 1, $TOT = 2,
$DATATYPE = I; 159 bytes, so the segment spans [58, 217). -/
def sampleText : String :=
  "/$BEGINANALYSIS/0/$BEGINDATA/217/$BEGINSTEXT/0/$BYTEORD/1,2,3,4/" ++
  "$DATATYPE/I/$ENDANALYSIS/0/$ENDDATA/224/$ENDSTEXT/0/$MODE/L/" ++
  "$NEXTDATA/0/$PAR/1/$TOT/2/$P1N/FSC/"

/-- A complete 225-byte FCS source: header, TEXT segment, then the
8-byte DATA segment holding the little-endian i32 values 1 and 2. -/
def sampleFcs : List Byte :=
  asciiB ("FCS3.1" ++ "    " ++ "      58" ++ "     217" ++ "     217" ++
    "     224" ++ "       0" ++ "       0" ++ sampleText) ++
  [1, 0, 0, 0, 2, 0, 0, 0]

/-- `sampleFcs` with the header's DATA-start field changed from 217 to
999; the bytes from offset 217 on are untouched. -/
def sampleFcsAltHeader : List Byte :=
  asciiB ("FCS3.1" ++ "    " ++ "      58" ++ "     217" ++ "     999" ++
    "     224" ++ "       0" ++ "       0" ++ sampleText) ++
  [1, 0, 0, 0, 2, 0, 0, 0]

/-- The metadata that decoding `sampleFcs` produces. -/
def sampleMeta : Metadata :=
  ⟨"FCS3.1", 47,
   ["$BEGINANALYSIS", "$BEGINDATA", "$BEGINSTEXT", "$BYTEORD", "$DATATYPE",
    "$ENDANALYSIS", "$ENDDATA", "$ENDSTEXT", "$MODE", "$NEXTDATA", "$PAR",
    "$TOT", "$P1N"],
   [("$P1N", "FSC"), ("$TOT", "2"), ("$PAR", "1"), ("$NEXTDATA", "0"),
    ("$MODE", "L"), ("$ENDSTEXT", "0"), ("$ENDDATA", "224"),
    ("$ENDANALYSIS", "0"), ("$DATATYPE", "I"), ("$BYTEORD", "1,2,3,4"),
    ("$BEGINSTEXT", "0"), ("$BEGINDATA", "217"), ("$BEGINANALYSIS", "0")]⟩

/-- The FlowData that decoding `sampleFcs` produces. -/
def sampleDecoded : FlowData :=
  ⟨sampleMeta, [⟨"FSC", [.i32val 1, .i32val 2]⟩]⟩

/-- `sampleFcs` with the pair $TOT/3/ appended to the TEXT segment, so
the keyword $TOT occurs twice; the segment grows to [58, 224). -/
def dupFcs : List Byte :=
  asciiB ("FCS3.1" ++ "    " ++ "      58" ++ "     224" ++ "     217" ++
    "     224" ++ "       0" ++ "       0" ++ sampleText ++ "$TOT/3/")

/-- The metadata that `read_metadata dupFcs` produces: $TOT is listed
twice in the keyword list and the map keeps its last value 3. -/
def dupMeta : Metadata :=
  ⟨"FCS3.1", 47,
   ["$BEGINANALYSIS", "$BEGINDATA", "$BEGINSTEXT", "$BYTEORD", "$DATATYPE",
    "$ENDANALYSIS", "$ENDDATA", "$ENDSTEXT", "$MODE", "$NEXTDATA", "$PAR",
    "$TOT", "$P1N", "$TOT"],
   [("$TOT", "3"), ("$P1N", "FSC"), ("$TOT", "2"), ("$PAR", "1"),
    ("$NEXTDATA", "0"), ("$MODE", "L"), ("$ENDSTEXT", "0"),
    ("$ENDDATA", "224"), ("$ENDANALYSIS", "0"), ("$DATATYPE", "I"),
    ("$BYTEORD", "1,2,3,4"), ("$BEGINSTEXT", "0"), ("$BEGINDATA", "217"),
    ("$BEGINANALYSIS", "0")]⟩

/-- A TEXT fragment whose first value contains an escaped (doubled)
delimiter: with delimiter /, the pair K1 = va/lue is written
K1/va//lue/ per the escaping convention. -/
def escTextBytes : List Byte := asciiB "/K1/va//lue/K2/v2/"

/-- A 59-byte source whose header promises a TEXT segment reaching
offset 100, but whose bytes end right after the delimiter: the
keyword-value loop reads an empty chunk at end of input without any
I/O error being raised. -/
def truncatedFcs : List Byte :=
  asciiB ("FCS3.1" ++ "    " ++ "      58" ++ "     100" ++ "       0" ++
    "       0" ++ "       0" ++ "       0" ++ "/")

/-- A well-formed TEXT fragment [0, 9) followed by one data byte: two
pairs A = 1 and B = 2, segment closed by the delimiter at offset 8. -/
def closedTextBytes : List Byte := asciiB "/A/1/B/2/X"

/-- Metadata with $DATATYPE F and the unrecognized byte order 2,1,4,3:
one parameter, one event, DATA at offset 0. -/
def metaByteOrderF : Metadata :=
  ⟨"FCS3.1", 47, [],
   [("$MODE", "L"), ("$DATATYPE", "F"), ("$PAR", "1"), ("$TOT", "1"),
    ("$BEGINDATA", "0"), ("$BYTEORD", "2,1,4,3"), ("$P1N", "X")]⟩

/-- Metadata with $DATATYPE D and the byte order 1,2,3,4, which is not
one of the two 8-byte tokens the D branch recognizes. -/
def metaByteOrderD : Metadata :=
  ⟨"FCS3.1", 47, [],
   [("$MODE", "L"), ("$DATATYPE", "D"), ("$PAR", "1"), ("$TOT", "1"),
    ("$BEGINDATA", "0"), ("$BYTEORD", "1,2,3,4"), ("$P1N", "X")]⟩

/-- Metadata containing all required keywords plus the keyword $FOO,
which is neither required nor optional and contains no parameter-pattern
match. -/
def fooMeta : Metadata :=
  ⟨"FCS3.1", 47, REQUIRED_KEYWORDS ++ ["$FOO"], [("$PAR", "1")]⟩

/-- Metadata containing all required keywords plus AXP1BZW, a keyword
that is not of the parameter-attribute shape but embeds the three
characters P1B in the middle. -/
def subMeta : Metadata :=
  ⟨"FCS3.1", 47, REQUIRED_KEYWORDS ++ ["AXP1BZW"], [("$PAR", "1")]⟩

/-- `sampleFcs` with $MODE H (histogram) instead of L: same layout,
well-formed header, TEXT and keyword set. -/
def modeHFcs : List Byte :=
  asciiB ("FCS3.1" ++ "    " ++ "      58" ++ "     217" ++ "     217" ++
    "     224" ++ "       0" ++ "       0" ++
    "/$BEGINANALYSIS/0/$BEGINDATA/217/$BEGINSTEXT/0/$BYTEORD/1,2,3,4/" ++
    "$DATATYPE/I/$ENDANALYSIS/0/$ENDDATA/224/$ENDSTEXT/0/$MODE/H/" ++
    "$NEXTDATA/0/$PAR/1/$TOT/2/$P1N/FSC/") ++
  [1, 0, 0, 0, 2, 0, 0, 0]

/-! # Theorems -/

/-- C5: for every byte source whose first 6 bytes are a supported
version tag followed by 4 space bytes, read_header reads six consecutive
8-byte fields at offsets 10, 18, 26, 34, 42 and 50, puts each through
the trim-whitespace-then-parse-as-u64 step `headerFieldNat`, and assigns
the six results positionally to txt_start, txt_end, data_start,
data_end, analysis_start and analysis_end. -/
theorem c5_read_header (bytes : List Byte) (cs : List Char)
    (n0 n1 n2 n3 n4 n5 : Nat)
    (hlen : 58 ≤ bytes.length)
    (hver : utf8Decode (bytes.take 6) = some cs)
    (hsup : String.mk cs = "FCS3.0" ∨ String.mk cs = "FCS3.1")
    (hsp : (bytes.drop 6).take 4 = [32, 32, 32, 32])
    (h0 : headerFieldNat ((bytes.drop 10).take 8) = .ok n0)
    (h1 : headerFieldNat ((bytes.drop 18).take 8) = .ok n1)
    (h2 : headerFieldNat ((bytes.drop 26).take 8) = .ok n2)
    (h3 : headerFieldNat ((bytes.drop 34).take 8) = .ok n3)
    (h4 : headerFieldNat ((bytes.drop 42).take 8) = .ok n4)
    (h5 : headerFieldNat ((bytes.drop 50).take 8) = .ok n5) :
    read_header bytes = .ok ⟨String.mk cs, n0, n1, n2, n3, n4, n5⟩ := by
  have e1 : readExact bytes 0 6 = .ok (bytes.take 6) := by
    unfold readExact
    rw [if_pos (by omega), List.drop_zero]
  have e2 : readExact bytes 6 4 = .ok ((bytes.drop 6).take 4) := by
    unfold readExact
    rw [if_pos (by omega)]
  have ef : ∀ p : Nat, p + 8 ≤ 58 →
      readExact bytes p 8 = .ok ((bytes.drop p).take 8) := by
    intro p hp
    unfold readExact
    rw [if_pos (by omega)]
  have v1 : validate_fcs_version (bytes.take 6) = .ok (String.mk cs) := by
    unfold validate_fcs_version
    rw [hver]
    simp only [if_pos hsup]
  have v2 : validate_spaces ((bytes.drop 6).take 4) = .ok "    " := by
    rw [hsp]
    decide
  have f0 : readOffsetField bytes 10 = .ok n0 := by
    unfold readOffsetField
    rw [ef 10 (by omega)]
    exact h0
  have f1 : readOffsetField bytes 18 = .ok n1 := by
    unfold readOffsetField
    rw [ef 18 (by omega)]
    exact h1
  have f2 : readOffsetField bytes 26 = .ok n2 := by
    unfold readOffsetField
    rw [ef 26 (by omega)]
    exact h2
  have f3 : readOffsetField bytes 34 = .ok n3 := by
    unfold readOffsetField
    rw [ef 34 (by omega)]
    exact h3
  have f4 : readOffsetField bytes 42 = .ok n4 := by
    unfold readOffsetField
    rw [ef 42 (by omega)]
    exact h4
  have f5 : readOffsetField bytes 50 = .ok n5 := by
    unfold readOffsetField
    rw [ef 50 (by omega)]
    exact h5
  unfold read_header
  rw [e1]
  simp only [v1, e2, v2, f0, f1, f2, f3, f4, f5]

/-- C5 witness: the general theorem applied to the FCS3.1 fixture
header gives exactly the offsets of the concrete scenario in the spec:
txt 64..8255, data 8256..445255, analysis absent. -/
theorem c5_read_header_witness :
    read_header fcs31FixtureHeader = .ok ⟨"FCS3.1", 64, 8255, 8256, 445255, 0, 0⟩ :=
  c5_read_header fcs31FixtureHeader "FCS3.1".data 64 8255 8256 445255 0 0
    (by decide) (by decide) (Or.inr rfl) (by decide) (by decide) (by decide)
    (by decide) (by decide) (by decide) (by decide)

/-- The required-keyword loop succeeds when every required keyword is
in the list. -/
theorem checkRequired_ok (req kws : List String)
    (h : ∀ r ∈ req, kws.contains r = true) : checkRequired req kws = .ok () := by
  induction req with
  | nil => rfl
  | cons r rest ih =>
    unfold checkRequired
    rw [h r (by simp)]
    exact ih (fun x hx => h x (by simp [hx]))

/-- If some keyword in the list is invalid, the keyword-validity loop
aborts naming an invalid keyword of the list. -/
theorem checkKeywords_error (d : Nat) (l : List String)
    (h : ∃ k ∈ l, validKeyword d k = false) :
    ∃ k, k ∈ l ∧ validKeyword d k = false ∧
      checkKeywords d l = .error (.panic ("Keyword " ++ k ++ " is not a valid keyword")) := by
  induction l with
  | nil => obtain ⟨k, hk, _⟩ := h; cases hk
  | cons k0 rest ih =>
    by_cases hv : validKeyword d k0 = true
    · obtain ⟨k, hk, hkv⟩ := h
      have hkrest : k ∈ rest := by
        cases hk with
        | head => rw [hv] at hkv; cases hkv
        | tail _ h2 => exact h2
      obtain ⟨k, hk1, hk2, hk3⟩ := ih ⟨k, hkrest, hkv⟩
      refine ⟨k, List.mem_cons_of_mem _ hk1, hk2, ?_⟩
      unfold checkKeywords
      rw [if_pos hv]
      exact hk3
    · refine ⟨k0, List.mem_cons_self _ _, by simpa using hv, ?_⟩
      unfold checkKeywords
      rw [if_neg hv]

/-- C6: validate_metadata rejects, with the unknown-keyword abort, any
metadata containing a keyword that is not in the required set, not in
the optional set, and not matched by the parameter pattern (P or R,
then at most d digits where d is the character count of the $PAR value,
then an attribute-suffix letter); the error names an offending keyword
of the list. -/
theorem c6_unknown_keyword (m : Metadata) (p kw : String)
    (hreq : ∀ r ∈ REQUIRED_KEYWORDS, m.keywords.contains r = true)
    (hpar : hmGet m.values "$PAR" = some p)
    (hd : p.length ≠ 0)
    (hkw : kw ∈ m.keywords)
    (hnr : REQUIRED_KEYWORDS.contains kw = false)
    (hno : OPTIONAL_KEYWORDS.contains kw = false)
    (hnp : paramMatch p.length kw.data = false) :
    ∃ k, k ∈ m.keywords ∧ validKeyword p.length k = false ∧
      validate_metadata m =
        .error (.panic ("Keyword " ++ k ++ " is not a valid keyword")) := by
  have hv : validKeyword p.length kw = false := by
    unfold validKeyword
    rw [hnr, hno, hnp]
    rfl
  obtain ⟨k, hk1, hk2, hk3⟩ :=
    checkKeywords_error p.length m.keywords ⟨kw, hkw, hv⟩
  refine ⟨k, hk1, hk2, ?_⟩
  unfold validate_metadata
  rw [checkRequired_ok REQUIRED_KEYWORDS m.keywords hreq]
  show (match hmGet m.values "$PAR" with
    | none => Except.error (RsError.panic "called Option unwrap on a None value")
    | some totalParams =>
      if totalParams.length = 0 then
        Except.error (RsError.panic "invalid repetition count range")
      else checkKeywords totalParams.length m.keywords) = _
  rw [hpar]
  show (if p.length = 0 then Except.error (RsError.panic "invalid repetition count range")
    else checkKeywords p.length m.keywords) = _
  rw [if_neg hd]
  exact hk3

/-- C6 witness: `fooMeta` has every required keyword and the keyword
$FOO, which fails all three membership tests, so validation rejects it
with the unknown-keyword abort. -/
theorem c6_unknown_keyword_witness :
    ∃ k, k ∈ fooMeta.keywords ∧ validKeyword 1 k = false ∧
      validate_metadata fooMeta =
        .error (.panic ("Keyword " ++ k ++ " is not a valid keyword")) :=
  c6_unknown_keyword fooMeta "1" "$FOO" (by decide) (by decide) (by decide)
    (by decide) (by decide) (by decide) (by decide)

/-- C7: the DATA decode seeks to the byte offset parsed from the
$BEGINDATA keyword value — read_data never consults the header's
data_start, so two byte sources that agree from that offset on (and may
disagree everywhere before it, in particular in the header's data_start
field) decode identically. -/
theorem c7_begindata_authoritative (meta : Metadata) (s : String) (n : Nat)
    (b1 b2 : List Byte)
    (hs : hmGet meta.values "$BEGINDATA" = some s)
    (hn : parseU64 s = some n)
    (hb : b1.drop n = b2.drop n) :
    read_data b1 meta = read_data b2 meta := by
  simp only [read_data, hs, hn, hb]

set_option maxRecDepth 8000 in
/-- C7 witness: `sampleFcsAltHeader` differs from `sampleFcs` only in
the header's data_start field (999 instead of 217); since $BEGINDATA is
217 and the sources agree from byte 217 on, read_data gives the same
result on both. -/
theorem c7_begindata_authoritative_witness :
    (read_header sampleFcs).map Header.data_start = .ok 217 ∧
    (read_header sampleFcsAltHeader).map Header.data_start = .ok 999 ∧
    read_data sampleFcs sampleMeta = read_data sampleFcsAltHeader sampleMeta :=
  ⟨by decide, by decide,
   c7_begindata_authoritative sampleMeta "217" 217 sampleFcs sampleFcsAltHeader
     (by decide) (by decide) (by decide)⟩

/-- C9: the parameter-keyword pattern is matched by an unanchored
substring search, not against the whole keyword: AXP1BZW is not of the
parameter-attribute shape (per the whole-keyword reading of the spec,
`paramPatternWhole`), yet, because it embeds the characters P1B,
validate_metadata accepts a metadata containing it without error. -/
theorem c9_substring_match :
    validate_metadata subMeta = .ok () ∧
    subMeta.keywords.contains "AXP1BZW" = true ∧
    paramPatternWhole 1 "AXP1BZW".data = false ∧
    paramMatch 1 "AXP1BZW".data = true := by decide

/-- `lastValueFor` on a cons, as a rewrite rule. -/
theorem lastValueFor_cons (k k1 v1 : String) (rest : List (String × String)) :
    lastValueFor k ((k1, v1) :: rest) =
      match lastValueFor k rest with
      | some v => some v
      | none => if k1 = k then some v1 else none := rfl

/-- The record/insert loop appends exactly the non-empty keywords, in
order. -/
theorem buildMetaLoop_keywords (pairs : List (String × String)) :
    ∀ m : Metadata,
      (buildMetaLoop m pairs).keywords = m.keywords ++ recordedKeywords pairs := by
  induction pairs with
  | nil => intro m; simp [buildMetaLoop, recordedKeywords]
  | cons pr rest ih =>
    intro m
    obtain ⟨k, v⟩ := pr
    by_cases hk : k = ""
    · subst hk
      unfold buildMetaLoop recordedKeywords
      rw [if_neg (by simp), if_neg (by simp)]
      exact ih m
    · unfold buildMetaLoop recordedKeywords
      rw [if_pos hk, if_pos hk, ih]
      simp

/-- After the record/insert loop, a lookup of a non-empty keyword sees
the value of its last occurrence among the processed pairs. -/
theorem buildMetaLoop_values (k : String) (hk : k ≠ "") (pairs : List (String × String)) :
    ∀ m : Metadata, hmGet (buildMetaLoop m pairs).values k =
      match lastValueFor k pairs with
      | some v => some v
      | none => hmGet m.values k := by
  induction pairs with
  | nil => intro m; rfl
  | cons pr rest ih =>
    intro m
    obtain ⟨k1, v1⟩ := pr
    unfold buildMetaLoop
    rw [lastValueFor_cons]
    by_cases hke : k1 = ""
    · subst hke
      rw [if_neg (by simp)]
      rw [ih m]
      have hne : ("" = k) = False := eq_false (fun hh => hk hh.symm)
      cases hl : lastValueFor k rest <;> simp [hl, hne]
    · rw [if_pos hke]
      rw [ih]
      cases hl : lastValueFor k rest
      · by_cases hk1k : k1 = k <;> simp [hl, hmGet, hmInsert, hk1k]
      · simp [hl]

/-- C8: for every byte source the metadata parser accepts, the ordered
keyword list records every occurrence of a non-empty keyword
positionally, in file order (one entry per cleaned pair), while a map
lookup returns the value of the last occurrence of the keyword among
the parsed pairs. -/
theorem c8_duplicate_keywords (bytes : List Byte) (m : Metadata)
    (h : read_metadata bytes = .ok m) :
    ∃ pairs : List (String × String),
      m.keywords = recordedKeywords pairs ∧
      ∀ k : String, k ≠ "" → hmGet m.values k = lastValueFor k pairs := by
  unfold read_metadata at h
  split at h
  · exact absurd h (by simp)
  · rename_i header hheader
    split at h
    · exact absurd h (by simp)
    · rename_i db hdb
      dsimp only [] at h
      split at h
      · exact absurd h (by simp)
      · rename_i pairs hpairs
        split at h
        · exact absurd h (by simp)
        · injection h with h2
          refine ⟨pairs, ?_, ?_⟩
          · rw [← h2]
            show (buildMetaLoop ⟨header.version, db.headI, [], []⟩ pairs).keywords = _
            rw [buildMetaLoop_keywords]
            rfl
          · intro k hk
            rw [← h2]
            show hmGet (buildMetaLoop ⟨header.version, db.headI, [], []⟩ pairs).values k = _
            rw [buildMetaLoop_values k hk]
            cases hl : lastValueFor k pairs <;> simp [hl, hmGet]

set_option maxRecDepth 8000 in
/-- C8 witness: `dupFcs` carries the keyword $TOT twice (values 2, then
3); the decoded metadata lists $TOT twice in the ordered keyword list
and its map keeps the last value 3, as the theorem instantiated at
`dupFcs` states. -/
theorem c8_duplicate_keywords_witness :
    dupMeta.keywords.count "$TOT" = 2 ∧
    hmGet dupMeta.values "$TOT" = some "3" ∧
    ∃ pairs : List (String × String),
      dupMeta.keywords = recordedKeywords pairs ∧
      ∀ k : String, k ≠ "" → hmGet dupMeta.values k = lastValueFor k pairs :=
  ⟨by decide, by decide, c8_duplicate_keywords dupFcs dupMeta (by decide)⟩

/-- C1 (evaluation at the failing input): on the TEXT fragment
/K1/va//lue/K2/v2/ the keyword-value loop does not decode the doubled
delimiter as an escaped delimiter inside one value.  It cuts the value
at the first of the two delimiter bytes: the cleaned pairs are
(K1, va), an empty-keyword pair carrying the orphaned tail lue (which
the record step then silently discards), and (K2, v2), so K1 maps to
va instead of va/lue. -/
theorem c1_escaping_not_decoded :
    readPairs 47 escTextBytes 18 1 =
      .ok [("K1", "va"), ("", "lue"), ("K2", "v2")] ∧
    (buildMeta "FCS3.1" 47 [("K1", "va"), ("", "lue"), ("K2", "v2")]).keywords =
      ["K1", "K2"] ∧
    hmGet (buildMeta "FCS3.1" 47 [("K1", "va"), ("", "lue"), ("K2", "v2")]).values "K1" =
      some "va" := by decide

/-- C2 (evaluation at the failing input): with $DATATYPE F and the
unrecognized byte order 2,1,4,3 (or $DATATYPE D and the 4-byte token
1,2,3,4), the decode loop silently reads and pushes nothing — no
unsupported-byte-order error is raised — and the decode then aborts
with an out-of-bounds index in the assembly stage instead of returning
a typed error. -/
theorem c2_byteorder_silent_skip :
    decodeF "2,1,4,3" 1 [0, 0, 0, 0, 0, 0, 0, 0] =
      .ok ([], [0, 0, 0, 0, 0, 0, 0, 0]) ∧
    decodeD "1,2,3,4" 1 [0, 0, 0, 0, 0, 0, 0, 0] =
      .ok ([], [0, 0, 0, 0, 0, 0, 0, 0]) ∧
    read_data [0, 0, 0, 0, 0, 0, 0, 0] metaByteOrderF =
      .error (.panic "index out of bounds") ∧
    read_data [0, 0, 0, 0, 0, 0, 0, 0] metaByteOrderD =
      .error (.panic "index out of bounds") := by decide

/-- `read_until` reads a non-empty chunk whenever input remains. -/
theorem readUntilList_ne_nil (delim : Byte) (l : List Byte) (h : l ≠ []) :
    readUntilList delim l ≠ [] := by
  cases l with
  | nil => exact absurd rfl h
  | cons b rest =>
    unfold readUntilList
    split <;> simp

/-- A `read_until` chunk ends no later than just past the first
delimiter occurrence. -/
theorem readUntilList_length_le (delim : Byte) :
    ∀ (l : List Byte) (i : Nat), l[i]? = some delim →
      (readUntilList delim l).length ≤ i + 1 := by
  intro l
  induction l with
  | nil => intro i hi; simp at hi
  | cons b rest ih =>
    intro i hi
    unfold readUntilList
    by_cases hb : b = delim
    · rw [if_pos hb]
      simp
    · rw [if_neg hb]
      cases i with
      | zero => simp at hi; exact absurd hi hb
      | succ j =>
        simp only [List.getElem?_cons_succ] at hi
        have := ih j hi
        simp only [List.length_cons]
        omega

/-- Every raw chunk pair the loop hands to clean_kv is non-empty,
provided the byte source extends strictly beyond `txt_end` and the byte
at `txt_end - 1` is the delimiter (a complete, delimiter-closed TEXT
segment), for any amount of fuel and any start position. -/
theorem metadataChunksFuel_nonempty (delim : Byte) (bytes : List Byte) (txtEnd : Nat)
    (hend : txtEnd < bytes.length)
    (hdelim : bytes[txtEnd - 1]? = some delim) :
    ∀ (fuel pos : Nat) (pr : List Byte × List Byte),
      pr ∈ metadataChunksFuel delim bytes txtEnd fuel pos →
      pr.1 ≠ [] ∧ pr.2 ≠ [] := by
  intro fuel
  induction fuel with
  | zero => intro pos pr hpr; simp [metadataChunksFuel] at hpr
  | succ f ih =>
    intro pos pr hpr
    unfold metadataChunksFuel at hpr
    by_cases hp : pos < txtEnd
    · rw [if_pos hp] at hpr
      dsimp only [readUntil] at hpr
      have hk1 : readUntilList delim (bytes.drop pos) ≠ [] := by
        refine readUntilList_ne_nil delim _ ?_
        rw [Ne, List.drop_eq_nil_iff]
        omega
      have hklen : (readUntilList delim (bytes.drop pos)).length ≤ txtEnd - pos := by
        have hg : (bytes.drop pos)[txtEnd - 1 - pos]? = some delim := by
          rw [List.getElem?_drop]
          rw [show pos + (txtEnd - 1 - pos) = txtEnd - 1 by omega]
          exact hdelim
        have := readUntilList_length_le delim (bytes.drop pos) (txtEnd - 1 - pos) hg
        omega
      have hv1 : readUntilList delim
          (bytes.drop (pos + (readUntilList delim (bytes.drop pos)).length)) ≠ [] := by
        refine readUntilList_ne_nil delim _ ?_
        rw [Ne, List.drop_eq_nil_iff]
        omega
      rw [if_neg (by simp [List.isEmpty_iff, hk1, hv1])] at hpr
      cases hpr with
      | head => exact ⟨hk1, hv1⟩
      | tail _ htail => exact ih _ pr htail
    · rw [if_neg hp] at hpr
      cases hpr

/-- C10 (amended): every keyword chunk and value chunk the
keyword-value loop passes to the cleaning step is non-empty — so the
length-minus-one slice in clean_kv is in bounds — provided the byte
source extends strictly beyond `txt_end` and the byte at `txt_end - 1`
is the delimiter.  Without that proviso the loop can reach end of
input, where `read_until` returns an empty chunk without raising any
I/O error (see the counterexample). -/
theorem c10_chunks_nonempty (delim : Byte) (bytes : List Byte) (txtEnd pos : Nat)
    (hend : txtEnd < bytes.length)
    (hdelim : bytes[txtEnd - 1]? = some delim)
    (pr : List Byte × List Byte)
    (hpr : pr ∈ metadataChunks delim bytes txtEnd pos) :
    pr.1 ≠ [] ∧ pr.2 ≠ [] :=
  metadataChunksFuel_nonempty delim bytes txtEnd hend hdelim
    (txtEnd + 1 - pos) pos pr hpr

/-- C10 witness: on the closed TEXT fragment /A/1/B/2/ followed by one
data byte, the theorem applies to the first chunk pair (the bytes of
A/ and 1/), which is indeed non-empty. -/
theorem c10_chunks_nonempty_witness :
    ([65, 47] : List Byte) ≠ [] ∧ ([49, 47] : List Byte) ≠ [] :=
  c10_chunks_nonempty 47 closedTextBytes 9 1 (by decide) (by decide)
    ([65, 47], [49, 47]) (by decide)

/-- C10 counterexample: `truncatedFcs` is accepted without any I/O
error — every read up to the failure returns Ok — yet its header
promises `txt_end = 100` while the source ends at byte 59, so the first
loop iteration reads an empty keyword chunk and an empty value chunk at
end of input and hands them to clean_kv, where the length-minus-one
subtraction underflows and the process aborts. -/
theorem c10_empty_chunk_counterexample :
    metadataChunks 47 truncatedFcs 100 59 = [([], [])] ∧
    read_metadata truncatedFcs =
      .error (.panic "attempt to subtract with overflow") := by decide

set_option maxRecDepth 8000 in
/-- C3 (evaluation at failing inputs): malformed input aborts the
process instead of surfacing as a typed recoverable error value — an
unsupported version tag, a header without the four spaces, and a
histogram-mode file all end in the abort paths (modelled as
`RsError.panic`), not in returned `io::Error` values. -/
theorem c3_panics_on_malformed :
    read_fcs (asciiB "FCS2.0") =
      .error (.panic "Warning, FCS version FCS2.0 not supported") ∧
    read_fcs (asciiB "FCS3.1abcd") =
      .error (.panic "Invalid number of spaces") ∧
    read_fcs modeHFcs =
      .error (.panic "Data mode H not supported") := by decide

/-- A successful inner event loop returns exactly the `count` flat-array
elements from `idx` on, and they were all in bounds. -/
theorem sliceEvents_ok (data : List DecodedValue) :
    ∀ (c idx : Nat) (evs : List DecodedValue),
      sliceEvents data idx c = .ok evs →
      evs = (data.drop idx).take c ∧ (c ≠ 0 → idx + c ≤ data.length) := by
  intro c
  induction c with
  | zero =>
    intro idx evs h
    injection h with h2
    subst h2
    exact ⟨by simp, fun hc => absurd rfl hc⟩
  | succ c ih =>
    intro idx evs h
    unfold sliceEvents at h
    split at h
    · exact absurd h (by simp)
    · rename_i v hg
      split at h
      · exact absurd h (by simp)
      · rename_i vs hs
        injection h with h2
        subst h2
        obtain ⟨he, hb⟩ := ih (idx + 1) vs hs
        have hidx : idx < data.length := by
          by_contra hcon
          rw [List.getElem?_eq_none (by omega)] at hg
          cases hg
        have hgv : v = data[idx] := by
          have h4 := List.getElem?_eq_getElem hidx
          rw [hg] at h4
          exact Option.some.inj h4
        have hdropc : data.drop idx = v :: data.drop (idx + 1) := by
          rw [List.drop_eq_getElem_cons hidx, ← hgv]
        refine ⟨?_, ?_⟩
        · rw [hdropc, he, List.take_succ_cons]
        · intro _
          rcases Nat.eq_zero_or_pos c with hc | hc
          · omega
          · have := hb (by omega)
            omega
/-- The `"I"` branch decodes exactly `capacity` values when it
succeeds. -/
theorem decodeI_ok_length : ∀ (c : Nat) (s : List Byte) (vs : List DecodedValue) (rest : List Byte),
    decodeI c s = .ok (vs, rest) → vs.length = c := by
  intro c
  induction c with
  | zero =>
    intro s vs rest h
    injection h with h2
    cases h2
    rfl
  | succ c ih =>
    intro s vs rest h
    unfold decodeI at h
    split at h
    · exact absurd h (by simp)
    · split at h
      · exact absurd h (by simp)
      · rename_i vs2 fin hd
        injection h with h2
        cases h2
        simp [ih _ _ _ hd]

/-- The `"D"` branch decodes exactly `capacity` values for the two
recognized byte-order tokens and silently decodes zero values for any
other token. -/
theorem decodeD_ok_length (bo : String) :
    ∀ (c : Nat) (s : List Byte) (vs : List DecodedValue) (rest : List Byte),
    decodeD bo c s = .ok (vs, rest) →
    vs.length = if bo = "1,2,3,4,5,6,7,8" ∨ bo = "8,7,6,5,4,3,2,1" then c else 0 := by
  intro c
  induction c with
  | zero =>
    intro s vs rest h
    injection h with h2
    cases h2
    simp
  | succ c ih =>
    intro s vs rest h
    unfold decodeD at h
    by_cases h1 : bo = "1,2,3,4,5,6,7,8"
    · rw [if_pos h1] at h
      split at h
      · exact absurd h (by simp)
      · split at h
        · exact absurd h (by simp)
        · rename_i vs2 fin hd
          injection h with h2
          cases h2
          have := ih _ _ _ hd
          rw [if_pos (Or.inl h1)] at this
          rw [if_pos (Or.inl h1)]
          simp [this]
    · rw [if_neg h1] at h
      by_cases h2 : bo = "8,7,6,5,4,3,2,1"
      · rw [if_pos h2] at h
        split at h
        · exact absurd h (by simp)
        · split at h
          · exact absurd h (by simp)
          · rename_i vs2 fin hd
            injection h with h3
            cases h3
            have := ih _ _ _ hd
            rw [if_pos (Or.inr h2)] at this
            rw [if_pos (Or.inr h2)]
            simp [this]
      · rw [if_neg h2] at h
        have := ih _ _ _ h
        rw [if_neg (by tauto)] at this
        rw [if_neg (by tauto)]
        exact this

theorem assembleFrom_ok (values : List (String × String)) (data : List DecodedValue) (tot : Nat) :
    ∀ (r i : Nat) (params : List Parameter),
      assembleFrom values data tot i r = .ok params →
      params.length = r ∧
      (params.map Parameter.events).flatten = (data.drop (i * tot)).take (r * tot) ∧
      (∀ j, j < r → ∃ nm,
        hmGet values ("$P" ++ toString (i + j + 1) ++ "N") = some nm ∧
        params[j]? = some ⟨nm, (data.drop ((i + j) * tot)).take tot⟩) ∧
      (tot ≠ 0 → r ≠ 0 → i * tot + r * tot ≤ data.length) := by
  intro r
  induction r with
  | zero =>
    intro i params h
    injection h with h2
    subst h2
    exact ⟨rfl, by simp, fun j hj => absurd hj (by omega), fun _ hr => absurd rfl hr⟩
  | succ r ih =>
    intro i params h
    unfold assembleFrom at h
    split at h
    · exact absurd h (by simp)
    · rename_i nm hnm
      split at h
      · exact absurd h (by simp)
      · rename_i events hse
        split at h
        · exact absurd h (by simp)
        · rename_i rest hrest
          injection h with h2
          subst h2
          obtain ⟨hlen, hjoin, hjs, hbound⟩ := ih (i + 1) rest hrest
          obtain ⟨hevents, hevb⟩ := sliceEvents_ok data tot (i * tot) events hse
          have emul1 : (i + 1) * tot = i * tot + tot := by ring
          have emul2 : (r + 1) * tot = tot + r * tot := by ring
          refine ⟨by simp [hlen], ?_, ?_, ?_⟩
          · show events ++ (rest.map Parameter.events).flatten = _
            rw [hevents, hjoin, emul2, List.take_add, List.drop_drop, emul1]
          · intro j hj
            cases j with
            | zero =>
              refine ⟨nm, by simpa using hnm, ?_⟩
              simp [hevents]
            | succ jj =>
              obtain ⟨nm2, hnm2, hp2⟩ := hjs jj (by omega)
              refine ⟨nm2, ?_, ?_⟩
              · rw [show i + (jj + 1) + 1 = i + 1 + jj + 1 by ring]
                exact hnm2
              · rw [show i + (jj + 1) = i + 1 + jj by ring]
                simpa using hp2
          · intro htot hr
            rcases Nat.eq_zero_or_pos r with hr0 | hr0
            · subst hr0
              have := hevb htot
              simp only [emul2]
              omega
            · have := hbound htot (by omega)
              rw [emul1] at this
              rw [emul2]
              omega
/-- The `"F"` branch decodes exactly `capacity` values for the two
recognized byte-order tokens and silently decodes zero values for any
other token. -/
theorem decodeF_ok_length (bo : String) :
    ∀ (c : Nat) (s : List Byte) (vs : List DecodedValue) (rest : List Byte),
    decodeF bo c s = .ok (vs, rest) →
    vs.length = if bo = "1,2,3,4" ∨ bo = "4,3,2,1" then c else 0 := by
  intro c
  induction c with
  | zero =>
    intro s vs rest h
    injection h with h2
    cases h2
    simp
  | succ c ih =>
    intro s vs rest h
    unfold decodeF at h
    by_cases h1 : bo = "1,2,3,4"
    · rw [if_pos h1] at h
      split at h
      · exact absurd h (by simp)
      · split at h
        · exact absurd h (by simp)
        · rename_i vs2 fin hd
          injection h with h2
          cases h2
          have := ih _ _ _ hd
          rw [if_pos (Or.inl h1)] at this
          rw [if_pos (Or.inl h1)]
          simp [this]
    · rw [if_neg h1] at h
      by_cases h2 : bo = "4,3,2,1"
      · rw [if_pos h2] at h
        split at h
        · exact absurd h (by simp)
        · split at h
          · exact absurd h (by simp)
          · rename_i vs2 fin hd
            injection h with h3
            cases h3
            have := ih _ _ _ hd
            rw [if_pos (Or.inr h2)] at this
            rw [if_pos (Or.inr h2)]
            simp [this]
      · rw [if_neg h2] at h
        have := ih _ _ _ h
        rw [if_neg (by tauto)] at this
        rw [if_neg (by tauto)]
        exact this

/-- What a successful assembly stage guarantees: one parameter per
declared index with the name from its $PnN keyword, the flat array
fully used (its length is exactly `par * tot`), and the concatenation
of all event slices giving back the flat array. -/
theorem assembled_params (values : List (String × String)) (data : List DecodedValue)
    (tot par : Nat) (params : List Parameter)
    (hcap : par * tot ≠ 0)
    (hasm : assembleFrom values data tot 0 par = .ok params)
    (hdlen : data.length = par * tot ∨ data.length = 0) :
    params.length = par ∧ data.length = par * tot ∧
    (params.map Parameter.events).flatten = data ∧
    (∀ i, i < par → ∃ nm, hmGet values ("$P" ++ toString (i + 1) ++ "N") = some nm ∧
      params[i]? = some ⟨nm, (data.drop (i * tot)).take tot⟩) := by
  obtain ⟨hlen, hjoin, hjs, hbound⟩ := assembleFrom_ok values data tot par 0 params hasm
  have htot : tot ≠ 0 := fun h0 => hcap (by simp [h0])
  have hpar : par ≠ 0 := fun h0 => hcap (by simp [h0])
  have hge : par * tot ≤ data.length := by
    have := hbound htot hpar
    simpa using this
  have hdl : data.length = par * tot := by
    rcases hdlen with hcase | hcase
    · exact hcase
    · exfalso
      rw [hcase] at hge
      exact hcap (by omega)
  refine ⟨hlen, hdl, ?_, ?_⟩
  · rw [hjoin]
    simp only [Nat.zero_mul, List.drop_zero]
    exact List.take_of_length_le (by omega)
  · intro i hi
    obtain ⟨nm, hnm, hpi⟩ := hjs i hi
    refine ⟨nm, ?_, ?_⟩
    · simpa using hnm
    · simpa using hpi
/-- C4: every successfully decoded file holds exactly PAR parameters
in ascending parameter-index order — the parameter at 0-based position
`i` is named by the value under the $P(i+1)N keyword — and its events
are the i-th consecutive block of TOT values of the flat decoded array
(the output of the datatype branch of the decoder, reconstructed below
as the concatenation of all event sequences), order preserved, so the
total event count is exactly PAR * TOT. -/
theorem c4_parameter_assembly (bytes : List Byte) (fd : FlowData)
    (ps ts : String) (PAR TOT : Nat)
    (h : read_fcs bytes = .ok fd)
    (hp : hmGet fd.metadata.values "$PAR" = some ps)
    (hpn : parseU64 ps = some PAR)
    (ht : hmGet fd.metadata.values "$TOT" = some ts)
    (htn : parseU64 ts = some TOT) :
    fd.data.length = PAR ∧
    ∃ flat : List DecodedValue,
      flat.length = PAR * TOT ∧
      (fd.data.map Parameter.events).flatten = flat ∧
      (∀ i, i < PAR → ∃ nm,
        hmGet fd.metadata.values ("$P" ++ toString (i + 1) ++ "N") = some nm ∧
        fd.data[i]? = some ⟨nm, (flat.drop (i * TOT)).take TOT⟩) ∧
      ∃ bd n rest, hmGet fd.metadata.values "$BEGINDATA" = some bd ∧
        parseU64 bd = some n ∧
        (decodeI (PAR * TOT) (bytes.drop n) = .ok (flat, rest) ∨
         ∃ bo, hmGet fd.metadata.values "$BYTEORD" = some bo ∧
           (decodeF bo (PAR * TOT) (bytes.drop n) = .ok (flat, rest) ∨
            decodeD bo (PAR * TOT) (bytes.drop n) = .ok (flat, rest))) := by
  unfold read_fcs at h
  split at h
  · exact absurd h (by simp)
  · rename_i meta hmeta
    split at h
    · exact absurd h (by simp)
    · rename_i params hdata
      injection h with h2
      subst h2
      dsimp only [] at hp ht ⊢
      unfold read_data at hdata
      split at hdata
      · exact absurd hdata (by simp)
      · rename_i mode hmode
        split at hdata
        · exact absurd hdata (by simp)
        · split at hdata
          · exact absurd hdata (by simp)
          · rename_i dt hdt
            split at hdata
            · exact absurd hdata (by simp)
            · rename_i parStr hparStr
              have hps : parStr = ps := Option.some.inj (hparStr.symm.trans hp)
              subst hps
              split at hdata
              · exact absurd hdata (by simp)
              · rename_i total_params htp
                have hPAR : total_params = PAR := Option.some.inj (htp.symm.trans hpn)
                subst hPAR
                split at hdata
                · exact absurd hdata (by simp)
                · rename_i totStr htotStr
                  have hts : totStr = ts := Option.some.inj (htotStr.symm.trans ht)
                  subst hts
                  split at hdata
                  · exact absurd hdata (by simp)
                  · rename_i total_events hte
                    have hTOT : total_events = TOT := Option.some.inj (hte.symm.trans htn)
                    subst hTOT
                    split at hdata
                    · exact absurd hdata (by simp)
                    · rename_i beginStr hbegin
                      split at hdata
                      · exact absurd hdata (by simp)
                      · rename_i start_offset hso
                        split at hdata
                        · exact absurd hdata (by simp)
                        · rename_i byte_order hbo
                          dsimp only [] at hdata
                          split at hdata
                          · exact absurd hdata (by simp)
                          · rename_i hcap
                            by_cases hI : dt = "I"
                            · rw [if_pos hI] at hdata
                              split at hdata
                              · exact absurd hdata (by simp)
                              · rename_i data rest hdec
                                obtain ⟨hl, hdl, hflat, his⟩ :=
                                  assembled_params meta.values data _ _ params hcap hdata
                                    (Or.inl (decodeI_ok_length _ _ _ _ hdec))
                                refine ⟨hl, data, hdl, hflat, his, beginStr, start_offset, rest,
                                  hbegin, hso, Or.inl ?_⟩
                                exact hdec
                            · rw [if_neg hI] at hdata
                              by_cases hF : dt = "F"
                              · rw [if_pos hF] at hdata
                                split at hdata
                                · exact absurd hdata (by simp)
                                · rename_i data rest hdec
                                  have hdlen := decodeF_ok_length byte_order _ _ _ _ hdec
                                  obtain ⟨hl, hdl, hflat, his⟩ :=
                                    assembled_params meta.values data _ _ params hcap hdata
                                      (by split at hdlen <;> [exact Or.inl hdlen; exact Or.inr hdlen])
                                  exact ⟨hl, data, hdl, hflat, his, beginStr, start_offset, rest,
                                    hbegin, hso, Or.inr ⟨byte_order, hbo, Or.inl hdec⟩⟩
                              · rw [if_neg hF] at hdata
                                by_cases hD : dt = "D"
                                · rw [if_pos hD] at hdata
                                  split at hdata
                                  · exact absurd hdata (by simp)
                                  · rename_i data rest hdec
                                    have hdlen := decodeD_ok_length byte_order _ _ _ _ hdec
                                    obtain ⟨hl, hdl, hflat, his⟩ :=
                                      assembled_params meta.values data _ _ params hcap hdata
                                        (by split at hdlen <;> [exact Or.inl hdlen; exact Or.inr hdlen])
                                    exact ⟨hl, data, hdl, hflat, his, beginStr, start_offset, rest,
                                      hbegin, hso, Or.inr ⟨byte_order, hbo, Or.inr hdec⟩⟩
                                · rw [if_neg hD] at hdata
                                  exact absurd hdata (by simp)

set_option maxRecDepth 8000 in
/-- C4 witness: the theorem applied to the 225-byte sample source,
which decodes to one parameter FSC whose events are the two decoded
values; the flat array is recovered by the I-branch decoder at the
$BEGINDATA offset 217. -/
theorem c4_parameter_assembly_witness :
    sampleDecoded.data.length = 1 ∧
    ∃ flat : List DecodedValue,
      flat.length = 1 * 2 ∧
      (sampleDecoded.data.map Parameter.events).flatten = flat ∧
      (∀ i, i < 1 → ∃ nm,
        hmGet sampleDecoded.metadata.values ("$P" ++ toString (i + 1) ++ "N") = some nm ∧
        sampleDecoded.data[i]? = some ⟨nm, (flat.drop (i * 2)).take 2⟩) ∧
      ∃ bd n rest, hmGet sampleDecoded.metadata.values "$BEGINDATA" = some bd ∧
        parseU64 bd = some n ∧
        (decodeI (1 * 2) (sampleFcs.drop n) = .ok (flat, rest) ∨
         ∃ bo, hmGet sampleDecoded.metadata.values "$BYTEORD" = some bo ∧
           (decodeF bo (1 * 2) (sampleFcs.drop n) = .ok (flat, rest) ∨
            decodeD bo (1 * 2) (sampleFcs.drop n) = .ok (flat, rest))) :=
  c4_parameter_assembly sampleFcs sampleDecoded "1" "2" 1 2
    (by decide) (by decide) (by decide) (by decide) (by decide)

end FlowFairy
